import Mathlib

/-!
# Verification of teuthology-metrics

Shallow embedding of the core algorithms of the `teuthology-metrics`
repository, with theorems settling the specification claims about them.

Source files embedded:
* `src/ingest.py` — `sanitize_document` over JSON-like documents;
* `src/processer.py` — `query_data`, `teuthology_report` (suite reduction),
  `publish_report`, `update_runs` / `process` / `run_task` control flow;
* `src/fetcher.py` — `get_data` response handling;
* `api/opensearch.py` / `src/utils.py` — `insert_logs` batching (`batchify`).

Python `dict`s are modelled as association lists that preserve insertion
order (as Python dicts do); replacing the value of an existing key keeps
its position, matching CPython semantics.
-/

namespace TeuthologyMetrics

/-! ## JSON documents and `sanitize_document` (src/ingest.py) -/

/-- A JSON-like Python value: `None`, `bool`, number, string, list, or dict.
Dicts are ordered association lists (Python dicts preserve insertion order
and the source never relies on duplicate keys). -/
inductive JValue where
  | null : JValue
  | bool (b : Bool) : JValue
  | num (n : Int) : JValue
  | str (s : String) : JValue
  | arr (items : List JValue) : JValue
  | obj (fields : List (String × JValue)) : JValue
deriving Repr

/-- `PROBLEMATIC_FIELDS` from src/ingest.py: fields that can be object or
primitive and need normalization. -/
def PROBLEMATIC_FIELDS : List String := ["extra_system_packages", "extra_packages"]

mutual

/-- `sanitize_document` from src/ingest.py: recursively normalizes the
problematic fields (`null → {}`, string → `{"value": s}`, list →
`{"items": l}`, dict → recursively sanitized, other primitive →
`{"value": v}`); every other field is recursively processed; lists are
sanitized element-wise; primitives are returned as-is. -/
def sanitize_document : JValue → JValue
  | .obj fields => .obj (sanitizeFields fields)
  | .arr items => .arr (sanitizeItems items)
  | v => v

/-- The per-field loop of `sanitize_document` over a dict's items. -/
def sanitizeFields : List (String × JValue) → List (String × JValue)
  | [] => []
  | (key, value) :: rest =>
    (key,
      if key ∈ PROBLEMATIC_FIELDS then normalizeProblematic value
      else sanitize_document value) :: sanitizeFields rest

/-- The normalization branch of `sanitize_document` for a field whose name
is in `PROBLEMATIC_FIELDS`: `null → {}`, string → `{"value": s}`, list →
`{"items": l}`, dict → recursively sanitized, other primitive →
`{"value": v}`. -/
def normalizeProblematic : JValue → JValue
  | .null => .obj []
  | .str s => .obj [("value", .str s)]
  | .arr l => .obj [("items", .arr l)]
  | .obj o => sanitize_document (.obj o)
  | other => .obj [("value", other)]

/-- Element-wise sanitization of a list value. -/
def sanitizeItems : List JValue → List JValue
  | [] => []
  | item :: rest => sanitize_document item :: sanitizeItems rest

end

theorem sanitizeFields_eq_map (fields : List (String × JValue)) :
    sanitizeFields fields = fields.map fun kv =>
      (kv.1, if kv.1 ∈ PROBLEMATIC_FIELDS then normalizeProblematic kv.2
             else sanitize_document kv.2) := by
  induction fields with
  | nil => simp [sanitizeFields]
  | cons kv rest ih =>
    obtain ⟨key, value⟩ := kv
    rw [sanitizeFields, ih, List.map_cons]

mutual

/-- `true` iff no key equal to a `PROBLEMATIC_FIELDS` name occurs at any
nesting depth of the document. -/
def noProblematicKey : JValue → Bool
  | .obj fields => noProblematicKeyFields fields
  | .arr items => noProblematicKeyItems items
  | _ => true

/-- `noProblematicKey` over a dict's fields. -/
def noProblematicKeyFields : List (String × JValue) → Bool
  | [] => true
  | (key, value) :: rest =>
    !(key ∈ PROBLEMATIC_FIELDS : Bool) && noProblematicKey value
      && noProblematicKeyFields rest

/-- `noProblematicKey` over a list's items. -/
def noProblematicKeyItems : List JValue → Bool
  | [] => true
  | item :: rest => noProblematicKey item && noProblematicKeyItems rest

end

mutual

theorem sanitize_document_id : ∀ v : JValue, noProblematicKey v = true →
    sanitize_document v = v
  | .obj fields, h => by
    rw [sanitize_document,
      sanitizeFields_id fields (by simpa [noProblematicKey] using h)]
  | .arr items, h => by
    rw [sanitize_document,
      sanitizeItems_id items (by simpa [noProblematicKey] using h)]
  | .null, _ => by simp [sanitize_document]
  | .bool b, _ => by simp [sanitize_document]
  | .num n, _ => by simp [sanitize_document]
  | .str s, _ => by simp [sanitize_document]

theorem sanitizeFields_id : ∀ fields : List (String × JValue),
    noProblematicKeyFields fields = true → sanitizeFields fields = fields
  | [], _ => by rw [sanitizeFields]
  | (key, value) :: rest, h => by
    rw [noProblematicKeyFields] at h
    simp only [Bool.and_eq_true, Bool.not_eq_true', decide_eq_false_iff_not] at h
    rw [sanitizeFields, if_neg h.1.1, sanitize_document_id value h.1.2,
      sanitizeFields_id rest h.2]

theorem sanitizeItems_id : ∀ items : List JValue,
    noProblematicKeyItems items = true → sanitizeItems items = items
  | [], _ => by rw [sanitizeItems]
  | item :: rest, h => by
    rw [noProblematicKeyItems] at h
    simp only [Bool.and_eq_true] at h
    rw [sanitizeItems, sanitize_document_id item h.1, sanitizeItems_id rest h.2]

end

/-- C1: `sanitize_document` normalizes every field whose name is in the
shape-variable set (`extra_system_packages`, `extra_packages`): `null`
becomes `{}`, a string `s` becomes `{"value": s}`, a list `l` becomes
`{"items": l}`, and a dict value is kept as an object with its own fields
recursively sanitized; every field not in the set passes through with its
contents recursively processed. -/
theorem sanitize_document_spec (fields : List (String × JValue)) :
    sanitize_document (.obj fields) = .obj (fields.map fun kv =>
      (kv.1, if kv.1 ∈ PROBLEMATIC_FIELDS then normalizeProblematic kv.2
             else sanitize_document kv.2))
    ∧ normalizeProblematic .null = .obj []
    ∧ (∀ s, normalizeProblematic (.str s) = .obj [("value", .str s)])
    ∧ (∀ l, normalizeProblematic (.arr l) = .obj [("items", .arr l)])
    ∧ (∀ o, normalizeProblematic (.obj o) = .obj (sanitizeFields o)) := by
  refine ⟨?_, ?_, ?_, ?_, ?_⟩
  · rw [sanitize_document, sanitizeFields_eq_map]
  · simp [normalizeProblematic]
  · intro s; simp [normalizeProblematic]
  · intro l; simp [normalizeProblematic]
  · intro o; simp [normalizeProblematic, sanitize_document]

/-- C9: on a document in which no key from the shape-variable set occurs at
any nesting depth, `sanitize_document` is the identity. -/
theorem sanitize_document_identity_of_no_problematic (doc : JValue)
    (h : noProblematicKey doc = true) : sanitize_document doc = doc :=
  sanitize_document_id doc h

/-- Witness for C9 at a concrete nested document free of shape-variable
keys. -/
theorem sanitize_document_identity_of_no_problematic_witness :
    noProblematicKey
        (.obj [("a", .arr [.str "x", .obj [("b", .null)]]), ("c", .num 7)]) = true
    ∧ sanitize_document
        (.obj [("a", .arr [.str "x", .obj [("b", .null)]]), ("c", .num 7)]) =
      .obj [("a", .arr [.str "x", .obj [("b", .null)]]), ("c", .num 7)] :=
  ⟨by simp [noProblematicKey, noProblematicKeyFields, noProblematicKeyItems,
      PROBLEMATIC_FIELDS],
   sanitize_document_identity_of_no_problematic _
    (by simp [noProblematicKey, noProblematicKeyFields, noProblematicKeyItems,
      PROBLEMATIC_FIELDS])⟩

/-! ## Report reduction: `teuthology_report` (src/processer.py) -/

/-- The aggregate result counters carried in a hit's `_source.results`
object; every counter is optional and defaults to `0` in the report. -/
structure Results where
  total : Option Int := none
  pass : Option Int := none
  fail : Option Int := none
  dead : Option Int := none
  running : Option Int := none
  waiting : Option Int := none
  queued : Option Int := none
deriving Repr, DecidableEq

/-- The `_source` document of an OpenSearch hit, with the fields
`teuthology_report` reads; each is optional, matching `.get` access. -/
structure Source where
  suite : Option String := none
  posted : Option String := none
  sha1 : Option String := none
  results : Option Results := none
deriving Repr, DecidableEq

/-- An OpenSearch hit: `_id` plus `_source`. -/
structure Hit where
  id : String
  source : Source
deriving Repr, DecidableEq

/-- `hit["_source"].get("suite", "N/A")`. -/
def suiteName (h : Hit) : String := h.source.suite.getD "N/A"

/-- `hit["_source"].get("posted", "")`. -/
def postedOf (h : Hit) : String := h.source.posted.getD ""

/-- One value of the `suite_latest` dict: `{"posted": ..., "hit": ...}`. -/
structure Entry where
  posted : String
  hit : Hit
deriving Repr, DecidableEq

/-- Python truthiness of an optional string (`if sha_id:`): `None` and the
empty string are falsy. -/
def truthy : Option String → Bool
  | none => false
  | some s => !s.isEmpty

/-- Dict lookup over the ordered association list. -/
def lookupEntry : List (String × Entry) → String → Option Entry
  | [], _ => none
  | (k, e) :: rest, s => if k = s then some e else lookupEntry rest s

/-- Replace the value stored under key `s`, keeping its position (CPython
dict update semantics). -/
def replaceEntry (acc : List (String × Entry)) (s : String) (e : Entry) :
    List (String × Entry) :=
  acc.map fun kv => if kv.1 = s then (s, e) else kv

/-- One iteration of the `suite_latest` loop in `teuthology_report`: insert
the hit if its suite is unseen, else replace the stored entry only when
this hit's posted timestamp is strictly greater. -/
def updateSuiteLatest (acc : List (String × Entry)) (hit : Hit) :
    List (String × Entry) :=
  match lookupEntry acc (suiteName hit) with
  | none => acc ++ [(suiteName hit, ⟨postedOf hit, hit⟩)]
  | some stored =>
    if stored.posted < postedOf hit then
      replaceEntry acc (suiteName hit) ⟨postedOf hit, hit⟩
    else acc

/-- The `suite_latest` dict built by `teuthology_report`, as an ordered
association list. -/
def suite_latest (hits : List Hit) : List (String × Entry) :=
  hits.foldl updateSuiteLatest []

/-- `max(suite_latest.values(), key=lambda x: x["posted"])`: Python's `max`
returns the first element attaining the maximum. -/
def maxByPosted : List Entry → Option Entry
  | [] => none
  | e :: rest =>
    some (rest.foldl (fun best cur =>
      if best.posted < cur.posted then cur else best) e)

/-- One row of the rendered report (`data` list in `teuthology_report`),
with every missing counter defaulted to `0`. -/
structure Row where
  suite : String
  href : String
  total : Int
  passed : Int
  failed : Int
  dead : Int
  running : Int
  waiting : Int
  queued : Int
deriving Repr, DecidableEq

/-- Build one report row from a `suite_latest` item. -/
def mkRow (results_server : String) (s : String) (e : Entry) : Row :=
  let results := e.hit.source.results.getD {}
  { suite := s
    href := results_server ++ "/" ++ e.hit.id
    total := results.total.getD 0
    passed := results.pass.getD 0
    failed := results.fail.getD 0
    dead := results.dead.getD 0
    running := results.running.getD 0
    waiting := results.waiting.getD 0
    queued := results.queued.getD 0 }

/-- The structured result of `teuthology_report`: either the explicit
"no data available" page for the branch, or a report (branch, the sha id
shown, one row per suite). HTML rendering itself is out of scope. -/
inductive Report where
  | noData (branch : String)
  | page (branch : String) (sha_id : Option String) (rows : List Row)
deriving Repr, DecidableEq

/-- `teuthology_report` from src/processer.py: on empty hits return the
"no data available" result; otherwise reduce hits to the latest entry per
suite, derive the sha id from the most recent kept entry when none was
supplied, and emit one row per suite. -/
def teuthology_report (hits : List Hit) (branch : String)
    (results_server : String) (sha_id : Option String) : Report :=
  if hits.isEmpty then .noData branch
  else
    let sl := suite_latest hits
    let sha :=
      if !truthy sha_id && !sl.isEmpty then
        match maxByPosted (sl.map (·.2)) with
        | some e => some (e.hit.source.sha1.getD "N/A")
        | none => sha_id
      else sha_id
    .page branch sha (sl.map fun kv => mkRow results_server kv.1 kv.2)

theorem lookupEntry_eq_none {l : List (String × Entry)} {s : String} :
    lookupEntry l s = none ↔ s ∉ l.map Prod.fst := by
  induction l with
  | nil => simp [lookupEntry]
  | cons kv rest ih =>
    obtain ⟨k, e⟩ := kv
    by_cases h : k = s
    · subst h; simp [lookupEntry]
    · simp [lookupEntry, h, ih, Ne.symm h]

theorem lookupEntry_mem {l : List (String × Entry)} {s : String} {e : Entry}
    (h : lookupEntry l s = some e) : (s, e) ∈ l := by
  induction l with
  | nil => simp [lookupEntry] at h
  | cons kv rest ih =>
    obtain ⟨k, e'⟩ := kv
    by_cases hk : k = s
    · subst hk
      rw [lookupEntry, if_pos rfl] at h
      obtain rfl := Option.some.inj h
      exact List.mem_cons_self _ _
    · simp only [lookupEntry, if_neg hk] at h
      exact List.mem_cons_of_mem _ (ih h)

theorem entry_unique_of_nodup {l : List (String × Entry)}
    (nd : (l.map Prod.fst).Nodup) {s : String} {e e' : Entry}
    (h : (s, e) ∈ l) (h' : (s, e') ∈ l) : e = e' := by
  induction l with
  | nil => simp at h
  | cons kv rest ih =>
    obtain ⟨k, v⟩ := kv
    simp only [List.map_cons, List.nodup_cons] at nd
    rcases List.mem_cons.1 h with heq | hmem
    · rcases List.mem_cons.1 h' with heq' | hmem'
      · injection heq with hs he
        injection heq' with hs' he'
        exact he.trans he'.symm
      · injection heq with hs he
        exact absurd (hs ▸ List.mem_map_of_mem Prod.fst hmem') nd.1
    · rcases List.mem_cons.1 h' with heq' | hmem'
      · injection heq' with hs' he'
        exact absurd (hs' ▸ List.mem_map_of_mem Prod.fst hmem) nd.1
      · exact ih nd.2 hmem hmem'

theorem replaceEntry_map_fst (l : List (String × Entry)) (s : String)
    (e : Entry) : (replaceEntry l s e).map Prod.fst = l.map Prod.fst := by
  induction l with
  | nil => rfl
  | cons kv rest ih =>
    simp only [replaceEntry, List.map_cons] at ih ⊢
    by_cases h : kv.1 = s
    · rw [if_pos h, ih, h]
    · rw [if_neg h, ih]

theorem mem_replaceEntry {l : List (String × Entry)} {s : String} {e : Entry}
    {kv : String × Entry} (h : kv ∈ replaceEntry l s e) :
    (kv.1 ≠ s ∧ kv ∈ l) ∨ kv = (s, e) := by
  rcases List.mem_map.1 h with ⟨kv₀, hkv₀, heq⟩
  by_cases hk : kv₀.1 = s
  · right; rw [← heq]; simp [hk]
  · left; rw [← heq, if_neg hk]; exact ⟨hk, hkv₀⟩

theorem mem_replaceEntry_of_mem {l : List (String × Entry)} {s : String}
    {e : Entry} {kv : String × Entry} (h : kv ∈ l) (hne : kv.1 ≠ s) :
    kv ∈ replaceEntry l s e := by
  refine List.mem_map.2 ⟨kv, h, ?_⟩
  simp [hne]

theorem mem_replaceEntry_self {l : List (String × Entry)} {s : String}
    {e e₀ : Entry} (h : (s, e₀) ∈ l) : (s, e) ∈ replaceEntry l s e := by
  refine List.mem_map.2 ⟨(s, e₀), h, ?_⟩
  simp

/-- Invariant of the `suite_latest` accumulator after processing `hits`:
keys are distinct; every stored entry is a hit of `hits` for its suite
whose posted timestamp is maximal in its group; the keys are exactly the
suites occurring in `hits`; and every hit of the same suite occurring
strictly before the stored one has a strictly smaller posted timestamp
(ties are won by the earlier hit). -/
def SuiteLatestInv (hits : List Hit) (sl : List (String × Entry)) : Prop :=
  (sl.map Prod.fst).Nodup ∧
  (∀ kv ∈ sl, suiteName kv.2.hit = kv.1 ∧ kv.2.posted = postedOf kv.2.hit ∧
    kv.2.hit ∈ hits ∧
    ∀ h' ∈ hits, suiteName h' = kv.1 → postedOf h' ≤ kv.2.posted) ∧
  (∀ s, s ∈ sl.map Prod.fst ↔ ∃ h ∈ hits, suiteName h = s) ∧
  (∀ kv ∈ sl, ∃ pre post, hits = pre ++ kv.2.hit :: post ∧
    ∀ h' ∈ pre, suiteName h' = kv.1 → postedOf h' < kv.2.posted)

theorem suiteLatestInv_step {hits : List Hit} {sl : List (String × Entry)}
    (inv : SuiteLatestInv hits sl) (h : Hit) :
    SuiteLatestInv (hits ++ [h]) (updateSuiteLatest sl h) := by
  obtain ⟨nd, hprops, hkeys, hfirst⟩ := inv
  cases hl : lookupEntry sl (suiteName h) with
  | none =>
    have hnotkey : suiteName h ∉ sl.map Prod.fst := lookupEntry_eq_none.1 hl
    have hnone : ∀ h' ∈ hits, suiteName h' ≠ suiteName h := by
      intro h' hm heq
      exact hnotkey ((hkeys (suiteName h)).2 ⟨h', hm, heq⟩)
    simp only [updateSuiteLatest, hl]
    refine ⟨?_, ?_, ?_, ?_⟩
    · rw [List.map_append, List.map_cons, List.map_nil, List.nodup_append]
      refine ⟨nd, List.nodup_singleton _, fun a ha hb => ?_⟩
      obtain rfl := List.mem_singleton.1 hb
      exact hnotkey ha
    · intro kv hkv
      rcases List.mem_append.1 hkv with hold | hnew
      · obtain ⟨h1, h2, h3, h4⟩ := hprops kv hold
        refine ⟨h1, h2, List.mem_append_left _ h3, ?_⟩
        intro h' hm' heq
        rcases List.mem_append.1 hm' with hm' | hm'
        · exact h4 h' hm' heq
        · obtain rfl := List.mem_singleton.1 hm'
          exact absurd ((hkeys kv.1).2 ⟨kv.2.hit, h3, h1⟩)
            (heq ▸ hnotkey)
      · obtain rfl := List.mem_singleton.1 hnew
        refine ⟨rfl, rfl, List.mem_append_right _ (List.mem_singleton.2 rfl), ?_⟩
        intro h' hm' heq
        rcases List.mem_append.1 hm' with hm' | hm'
        · exact absurd heq (hnone h' hm')
        · obtain rfl := List.mem_singleton.1 hm'
          exact le_refl _
    · intro s
      rw [List.map_append, List.map_cons, List.map_nil, List.mem_append,
        List.mem_singleton, hkeys s]
      constructor
      · rintro (⟨h', hm', heq⟩ | rfl)
        · exact ⟨h', List.mem_append_left _ hm', heq⟩
        · exact ⟨h, List.mem_append_right _ (List.mem_singleton.2 rfl), rfl⟩
      · rintro ⟨h', hm', heq⟩
        rcases List.mem_append.1 hm' with hm' | hm'
        · exact Or.inl ⟨h', hm', heq⟩
        · obtain rfl := List.mem_singleton.1 hm'
          exact Or.inr heq.symm
    · intro kv hkv
      rcases List.mem_append.1 hkv with hold | hnew
      · obtain ⟨pre, post, hsplit, hstrict⟩ := hfirst kv hold
        exact ⟨pre, post ++ [h], by rw [hsplit]; simp, hstrict⟩
      · obtain rfl := List.mem_singleton.1 hnew
        refine ⟨hits, [], rfl, ?_⟩
        intro h' hm' heq
        exact absurd heq (hnone h' hm')
  | some stored =>
    have hmem_stored : (suiteName h, stored) ∈ sl := lookupEntry_mem hl
    obtain ⟨hs1, hs2, hs3, hs4⟩ := hprops _ hmem_stored
    by_cases hlt : stored.posted < postedOf h
    · simp only [updateSuiteLatest, hl, if_pos hlt]
      refine ⟨?_, ?_, ?_, ?_⟩
      · rw [replaceEntry_map_fst]; exact nd
      · intro kv hkv
        rcases mem_replaceEntry hkv with ⟨hne, hold⟩ | rfl
        · obtain ⟨h1, h2, h3, h4⟩ := hprops kv hold
          refine ⟨h1, h2, List.mem_append_left _ h3, ?_⟩
          intro h' hm' heq
          rcases List.mem_append.1 hm' with hm' | hm'
          · exact h4 h' hm' heq
          · obtain rfl := List.mem_singleton.1 hm'
            exact absurd heq.symm hne
        · refine ⟨rfl, rfl, List.mem_append_right _ (List.mem_singleton.2 rfl), ?_⟩
          intro h' hm' heq
          rcases List.mem_append.1 hm' with hm' | hm'
          · exact le_of_lt (lt_of_le_of_lt (hs4 h' hm' heq) hlt)
          · obtain rfl := List.mem_singleton.1 hm'
            exact le_refl _
      · intro s
        rw [replaceEntry_map_fst, hkeys s]
        constructor
        · rintro ⟨h', hm', heq⟩
          exact ⟨h', List.mem_append_left _ hm', heq⟩
        · rintro ⟨h', hm', heq⟩
          rcases List.mem_append.1 hm' with hm' | hm'
          · exact ⟨h', hm', heq⟩
          · obtain rfl := List.mem_singleton.1 hm'
            exact ⟨stored.hit, hs3, by rw [hs1, heq]⟩
      · intro kv hkv
        rcases mem_replaceEntry hkv with ⟨hne, hold⟩ | rfl
        · obtain ⟨pre, post, hsplit, hstrict⟩ := hfirst kv hold
          exact ⟨pre, post ++ [h], by rw [hsplit]; simp, hstrict⟩
        · refine ⟨hits, [], rfl, ?_⟩
          intro h' hm' heq
          exact lt_of_le_of_lt (hs4 h' hm' heq) hlt
    · simp only [updateSuiteLatest, hl, if_neg hlt]
      refine ⟨nd, ?_, ?_, ?_⟩
      · intro kv hkv
        obtain ⟨h1, h2, h3, h4⟩ := hprops kv hkv
        refine ⟨h1, h2, List.mem_append_left _ h3, ?_⟩
        intro h' hm' heq
        rcases List.mem_append.1 hm' with hm' | hm'
        · exact h4 h' hm' heq
        · obtain rfl := List.mem_singleton.1 hm'
          have hkv' : (kv.1, kv.2) ∈ sl := hkv
          have hst : (kv.1, stored) ∈ sl := heq ▸ hmem_stored
          have hes : kv.2 = stored := entry_unique_of_nodup nd hkv' hst
          rw [hes]
          exact le_of_not_lt hlt
      · intro s
        rw [hkeys s]
        constructor
        · rintro ⟨h', hm', heq⟩
          exact ⟨h', List.mem_append_left _ hm', heq⟩
        · rintro ⟨h', hm', heq⟩
          rcases List.mem_append.1 hm' with hm' | hm'
          · exact ⟨h', hm', heq⟩
          · obtain rfl := List.mem_singleton.1 hm'
            exact ⟨stored.hit, hs3, by rw [hs1, heq]⟩
      · intro kv hkv
        obtain ⟨pre, post, hsplit, hstrict⟩ := hfirst kv hkv
        exact ⟨pre, post ++ [h], by rw [hsplit]; simp, hstrict⟩

/-- The invariant holds of `suite_latest hits` for every hit list. -/
theorem suite_latest_inv (hits : List Hit) :
    SuiteLatestInv hits (suite_latest hits) := by
  induction hits using List.reverseRecOn with
  | nil =>
    refine ⟨List.nodup_nil, ?_, ?_, ?_⟩
    · intro kv hkv; simp [suite_latest] at hkv
    · intro s; simp [suite_latest]
    · intro kv hkv; simp [suite_latest] at hkv
  | append_singleton hits h ih =>
    rw [suite_latest, List.foldl_append, List.foldl_cons, List.foldl_nil]
    exact suiteLatestInv_step ih h

theorem foldlMax_spec (l : List Entry) (b : Entry) :
    l.foldl (fun best cur => if best.posted < cur.posted then cur else best) b
        ∈ b :: l ∧
    b.posted ≤ (l.foldl
        (fun best cur => if best.posted < cur.posted then cur else best)
        b).posted ∧
    ∀ x ∈ l, x.posted ≤ (l.foldl
        (fun best cur => if best.posted < cur.posted then cur else best)
        b).posted := by
  induction l generalizing b with
  | nil => simp
  | cons c rest ih =>
    simp only [List.foldl_cons]
    by_cases hc : b.posted < c.posted
    · rw [if_pos hc]
      obtain ⟨m1, m2, m3⟩ := ih c
      refine ⟨List.mem_cons_of_mem _ m1, le_trans (le_of_lt hc) m2, ?_⟩
      · intro x hx
        rcases List.mem_cons.1 hx with rfl | hmem
        · exact m2
        · exact m3 x hmem
    · rw [if_neg hc]
      obtain ⟨m1, m2, m3⟩ := ih b
      refine ⟨?_, m2, ?_⟩
      · rcases List.mem_cons.1 m1 with heq | hmem
        · rw [heq]; exact List.mem_cons_self _ _
        · exact List.mem_cons_of_mem _ (List.mem_cons_of_mem _ hmem)
      · intro x hx
        rcases List.mem_cons.1 hx with rfl | hmem
        · exact le_trans (le_of_not_lt hc) m2
        · exact m3 x hmem

theorem maxByPosted_cons_spec (e : Entry) (es : List Entry) :
    ∃ m, maxByPosted (e :: es) = some m ∧ m ∈ e :: es ∧
      ∀ x ∈ e :: es, x.posted ≤ m.posted := by
  obtain ⟨m1, m2, m3⟩ := foldlMax_spec es e
  refine ⟨_, rfl, m1, ?_⟩
  intro x hx
  rcases List.mem_cons.1 hx with rfl | hmem
  · exact m2
  · exact m3 x hmem

theorem suite_latest_ne_nil (h0 : Hit) (t : List Hit) :
    suite_latest (h0 :: t) ≠ [] := by
  intro hnil
  have hiff := (suite_latest_inv (h0 :: t)).2.2.1 (suiteName h0)
  rw [hnil] at hiff
  simp only [List.map_nil, List.not_mem_nil, false_iff, not_exists] at hiff
  exact hiff h0 ⟨List.mem_cons_self _ _, rfl⟩

theorem suite_latest_pair (h1 h2 : Hit) (hs : suiteName h1 = suiteName h2)
    (hp : postedOf h1 < postedOf h2) :
    suite_latest [h1, h2] = [(suiteName h2, ⟨postedOf h2, h2⟩)] := by
  simp [suite_latest, updateSuiteLatest, lookupEntry, replaceEntry, hs, hp]

/-- C2: for a non-empty hit list, the report reduction groups hits by suite
name: every kept entry is a hit of its suite whose posted timestamp is
lexicographically maximal in its group, the output has exactly one row per
distinct suite of the input, two hits for one suite with increasing posted
timestamps reduce to the later one alone, and with no build id supplied the
report's sha id comes from the overall most-recently-posted kept hit. -/
theorem teuthology_report_reduction (hits : List Hit)
    (branch results_server : String) (hne : hits ≠ []) :
    (∀ kv ∈ suite_latest hits, suiteName kv.2.hit = kv.1 ∧ kv.2.hit ∈ hits ∧
      ∀ h' ∈ hits, suiteName h' = kv.1 → postedOf h' ≤ postedOf kv.2.hit) ∧
    ((suite_latest hits).map Prod.fst).Nodup ∧
    (∀ s, s ∈ (suite_latest hits).map Prod.fst ↔ ∃ h ∈ hits, suiteName h = s) ∧
    (∀ h1 h2 : Hit, suiteName h1 = suiteName h2 → postedOf h1 < postedOf h2 →
      suite_latest [h1, h2] = [(suiteName h2, ⟨postedOf h2, h2⟩)]) ∧
    (∃ m : Entry, m ∈ (suite_latest hits).map Prod.snd ∧
      (∀ e' ∈ (suite_latest hits).map Prod.snd, e'.posted ≤ m.posted) ∧
      teuthology_report hits branch results_server none =
        .page branch (some (m.hit.source.sha1.getD "N/A"))
          ((suite_latest hits).map fun kv => mkRow results_server kv.1 kv.2)) := by
  obtain ⟨nd, hprops, hkeys, -⟩ := suite_latest_inv hits
  refine ⟨?_, nd, hkeys, fun h1 h2 hs hp => suite_latest_pair h1 h2 hs hp, ?_⟩
  · intro kv hkv
    obtain ⟨h1, h2, h3, h4⟩ := hprops kv hkv
    exact ⟨h1, h3, fun h' hm' heq => h2 ▸ h4 h' hm' heq⟩
  · obtain ⟨h0, t, rfl⟩ := List.exists_cons_of_ne_nil hne
    cases hslc : suite_latest (h0 :: t) with
    | nil => exact absurd hslc (suite_latest_ne_nil h0 t)
    | cons kv rest =>
      obtain ⟨m, hmax_eq, hm_mem, hm_max⟩ :=
        maxByPosted_cons_spec kv.2 (rest.map Prod.snd)
      refine ⟨m, ?_, ?_, ?_⟩
      · rw [List.map_cons]; exact hm_mem
      · intro e' he'
        rw [List.map_cons] at he'
        exact hm_max e' he'
      · simp [teuthology_report, truthy, hslc, hmax_eq]

/-- Witness hits for the report-reduction claims: two hits for suite
`rados`, the second posted later. -/
def witnessHitA : Hit :=
  ⟨"runA", { suite := some "rados", posted := some "2024-01-01T10:00",
             sha1 := some "abc123", results := none }⟩

/-- Second witness hit for suite `rados`, posted later than the first. -/
def witnessHitB : Hit :=
  ⟨"runB", { suite := some "rados", posted := some "2024-01-01T12:00",
             sha1 := some "def456", results := none }⟩

/-- Witness for C2 at the concrete two-hit input of the spec example. -/
theorem teuthology_report_reduction_witness :
    [witnessHitA, witnessHitB] ≠ [] ∧
    ((∀ kv ∈ suite_latest [witnessHitA, witnessHitB],
      suiteName kv.2.hit = kv.1 ∧ kv.2.hit ∈ [witnessHitA, witnessHitB] ∧
      ∀ h' ∈ [witnessHitA, witnessHitB], suiteName h' = kv.1 →
        postedOf h' ≤ postedOf kv.2.hit) ∧
    ((suite_latest [witnessHitA, witnessHitB]).map Prod.fst).Nodup ∧
    (∀ s, s ∈ (suite_latest [witnessHitA, witnessHitB]).map Prod.fst ↔
      ∃ h ∈ [witnessHitA, witnessHitB], suiteName h = s) ∧
    (∀ h1 h2 : Hit, suiteName h1 = suiteName h2 → postedOf h1 < postedOf h2 →
      suite_latest [h1, h2] = [(suiteName h2, ⟨postedOf h2, h2⟩)]) ∧
    (∃ m : Entry, m ∈ (suite_latest [witnessHitA, witnessHitB]).map Prod.snd ∧
      (∀ e' ∈ (suite_latest [witnessHitA, witnessHitB]).map Prod.snd,
        e'.posted ≤ m.posted) ∧
      teuthology_report [witnessHitA, witnessHitB] "main" "http://results" none =
        .page "main" (some (m.hit.source.sha1.getD "N/A"))
          ((suite_latest [witnessHitA, witnessHitB]).map
            fun kv => mkRow "http://results" kv.1 kv.2))) :=
  ⟨List.cons_ne_nil _ _,
   teuthology_report_reduction [witnessHitA, witnessHitB] "main" "http://results"
    (List.cons_ne_nil _ _)⟩

/-- C10: ties in the report reduction are broken by input order: a later
hit replaces the stored entry for its suite only when its posted timestamp
is strictly greater, the kept hit for each suite is preceded only by
same-suite hits with strictly smaller posted timestamps, and two hits for
one suite with equal posted timestamps reduce to the first one alone. -/
theorem suite_latest_tie_earlier_kept :
    (∀ hits : List Hit, ∀ kv ∈ suite_latest hits, ∃ pre post,
      hits = pre ++ kv.2.hit :: post ∧
      ∀ h' ∈ pre, suiteName h' = kv.1 → postedOf h' < kv.2.posted) ∧
    (∀ (sl : List (String × Entry)) (stored : Entry) (h : Hit),
      lookupEntry sl (suiteName h) = some stored →
      ¬ stored.posted < postedOf h → updateSuiteLatest sl h = sl) ∧
    (∀ h1 h2 : Hit, suiteName h1 = suiteName h2 → postedOf h1 = postedOf h2 →
      suite_latest [h1, h2] = [(suiteName h1, ⟨postedOf h1, h1⟩)]) := by
  refine ⟨?_, ?_, ?_⟩
  · intro hits
    exact (suite_latest_inv hits).2.2.2
  · intro sl stored h hl hnlt
    simp only [updateSuiteLatest, hl, if_neg hnlt]
  · intro h1 h2 hs hp
    simp [suite_latest, updateSuiteLatest, lookupEntry, hs, ← hp]

/-- Witness hit tied with `witnessHitA` (same suite, same posted). -/
def witnessHitC : Hit :=
  ⟨"runC", { suite := some "rados", posted := some "2024-01-01T10:00",
             sha1 := some "ghi789", results := none }⟩

/-- Witness for C10: two tied hits for suite `rados` reduce to the earlier
one. -/
theorem suite_latest_tie_earlier_kept_witness :
    suite_latest [witnessHitA, witnessHitC] =
      [(suiteName witnessHitA, ⟨postedOf witnessHitA, witnessHitA⟩)] :=
  suite_latest_tie_earlier_kept.2.2 witnessHitA witnessHitC rfl rfl

/-! ## Day-range scanning: `query_data` (src/processer.py)

Python's `datetime` values ordered by date are isomorphic to day ordinals,
and `current += timedelta(days=1)` is ordinal successor, so the `while
current <= end` loop is modelled as a loop over day ordinals. `toOrdinal`
and `fromOrdinal` are the standard proleptic-Gregorian civil-date/day-count
conversions, matching `datetime.strptime` / `strftime("%Y-%m-%d")`. -/

/-- A calendar date as parsed by `datetime.strptime(s, "%Y-%m-%d")`. -/
structure Date where
  year : Nat
  month : Nat
  day : Nat
deriving Repr, DecidableEq

/-- Days since 0000-03-01 of the proleptic Gregorian calendar (valid for
year ≥ 1, which covers every parseable `%Y-%m-%d` date). -/
def toOrdinal (d : Date) : Nat :=
  let y := if d.month ≤ 2 then d.year - 1 else d.year
  let era := y / 400
  let yoe := y % 400
  let mp := (d.month + 9) % 12
  let doy := (153 * mp + 2) / 5 + d.day - 1
  let doe := yoe * 365 + yoe / 4 - yoe / 100 + doy
  era * 146097 + doe

/-- Civil date from a day ordinal (inverse of `toOrdinal`). -/
def fromOrdinal (n : Nat) : Date :=
  let era := n / 146097
  let doe := n % 146097
  let yoe := (doe - doe / 1460 + doe / 36524 - doe / 146096) / 365
  let y := yoe + era * 400
  let doy := doe - (365 * yoe + yoe / 4 - yoe / 100)
  let mp := (5 * doy + 2) / 153
  let d := doy - (153 * mp + 2) / 5 + 1
  let m := if mp < 10 then mp + 3 else mp - 9
  ⟨if m ≤ 2 then y + 1 else y, m, d⟩

/-- Zero-padded two-digit rendering. -/
def pad2 (n : Nat) : String :=
  if n < 10 then "0" ++ toString n else toString n

/-- Zero-padded four-digit rendering. -/
def pad4 (n : Nat) : String :=
  if n < 10 then "000" ++ toString n
  else if n < 100 then "00" ++ toString n
  else if n < 1000 then "0" ++ toString n
  else toString n

/-- `current.strftime("%Y-%m-%d")`. -/
def fmtDate (d : Date) : String :=
  pad4 d.year ++ "-" ++ pad2 d.month ++ "-" ++ pad2 d.day

/-- One clause of the OpenSearch boolean query built by `query_data`. -/
inductive Condition where
  | wildcard (field pattern : String)
  | term (field value : String)
deriving Repr, DecidableEq

/-- The `must_conditions` list built by `query_data` for one day: the
wildcard on the day's date prefix of `posted`, the exact branch match, and
the sha id / user exact matches only when those arguments are truthy. -/
def mustConditions (date branch : String) (sha_id user : Option String) :
    List Condition :=
  [.wildcard "posted.keyword" (date ++ "*"), .term "branch.keyword" branch]
    ++ (if truthy sha_id then [.term "sha1.keyword" (sha_id.getD "")] else [])
    ++ (if truthy user then [.term "user.keyword" (user.getD "")] else [])

/-- The `while current <= end` loop of `query_data` over day ordinals.
`search` abstracts `query(client, _query, index)`; it returns `none` when
the query fails or the response lacks `hits` (in which case the day
contributes nothing). -/
def queryLoop (search : List Condition → Option (List Hit)) (branch : String)
    (sha_id user : Option String) (current endD : Nat) : List Hit :=
  if current ≤ endD then
    ((search (mustConditions (fmtDate (fromOrdinal current)) branch
        sha_id user)).getD [])
      ++ queryLoop search branch sha_id user (current + 1) endD
  else []
termination_by endD + 1 - current
decreasing_by omega

/-- `query_data` from src/processer.py: accumulate hits over the inclusive
date range, one query per calendar day. -/
def query_data (search : List Condition → Option (List Hit)) (branch : String)
    (start_date end_date : Date) (sha_id user : Option String) : List Hit :=
  queryLoop search branch sha_id user (toOrdinal start_date)
    (toOrdinal end_date)

theorem queryLoop_eq_flatten (search : List Condition → Option (List Hit))
    (branch : String) (sha_id user : Option String) :
    ∀ (n c e : Nat), e + 1 - c = n →
    queryLoop search branch sha_id user c e =
      ((List.range' c n).map fun i =>
        (search (mustConditions (fmtDate (fromOrdinal i)) branch
          sha_id user)).getD []).flatten := by
  intro n
  induction n with
  | zero =>
    intro c e h
    rw [queryLoop, if_neg (by omega)]
    simp
  | succ k ih =>
    intro c e h
    have hce : c ≤ e := by omega
    rw [queryLoop, if_pos hce, List.range'_succ, List.map_cons,
      List.flatten_cons, ih (c + 1) e (by omega)]

/-- C3: over an inclusive date range `start_date ≤ end_date`, `query_data`
issues one query per calendar day — `end - start + 1` of them — each
filtered by the branch and a wildcard on that day's date prefix of the
posted timestamp, with exact-match conditions on build id and user present
exactly when those arguments are truthy; the result is the concatenation of
the hits of all the daily queries in day order. -/
theorem query_data_day_range (search : List Condition → Option (List Hit))
    (branch : String) (start_date end_date : Date)
    (sha_id user : Option String)
    (hse : toOrdinal start_date ≤ toOrdinal end_date) :
    query_data search branch start_date end_date sha_id user =
      ((List.range' (toOrdinal start_date)
          (toOrdinal end_date - toOrdinal start_date + 1)).map fun i =>
        (search (mustConditions (fmtDate (fromOrdinal i)) branch
          sha_id user)).getD []).flatten ∧
    (List.range' (toOrdinal start_date)
        (toOrdinal end_date - toOrdinal start_date + 1)).length =
      toOrdinal end_date - toOrdinal start_date + 1 ∧
    ∀ date : String,
      Condition.wildcard "posted.keyword" (date ++ "*")
          ∈ mustConditions date branch sha_id user ∧
      Condition.term "branch.keyword" branch
          ∈ mustConditions date branch sha_id user ∧
      ((∃ v, Condition.term "sha1.keyword" v
          ∈ mustConditions date branch sha_id user) ↔ truthy sha_id = true) ∧
      ((∃ v, Condition.term "user.keyword" v
          ∈ mustConditions date branch sha_id user) ↔ truthy user = true) := by
  refine ⟨?_, List.length_range' .., ?_⟩
  · rw [query_data]
    exact queryLoop_eq_flatten search branch sha_id user _ _ _ (by omega)
  · intro date
    refine ⟨by simp [mustConditions], by simp [mustConditions], ?_, ?_⟩
    · cases hsha : truthy sha_id <;> cases huser : truthy user <;>
        simp [mustConditions, hsha, huser]
    · cases hsha : truthy sha_id <;> cases huser : truthy user <;>
        simp [mustConditions, hsha, huser]

/-- Witness for C3: the range 2024-01-01..2024-01-03 yields exactly 3 daily
queries whose date strings are the three consecutive days. -/
theorem query_data_day_range_witness :
    toOrdinal ⟨2024, 1, 1⟩ ≤ toOrdinal ⟨2024, 1, 3⟩ ∧
    (query_data (fun _ => none) "main" ⟨2024, 1, 1⟩ ⟨2024, 1, 3⟩ none none =
      ((List.range' (toOrdinal ⟨2024, 1, 1⟩)
          (toOrdinal ⟨2024, 1, 3⟩ - toOrdinal ⟨2024, 1, 1⟩ + 1)).map fun i =>
        ((fun _ => (none : Option (List Hit)))
          (mustConditions (fmtDate (fromOrdinal i)) "main" none none)).getD
            []).flatten ∧
    (List.range' (toOrdinal ⟨2024, 1, 1⟩)
        (toOrdinal ⟨2024, 1, 3⟩ - toOrdinal ⟨2024, 1, 1⟩ + 1)).length =
      toOrdinal ⟨2024, 1, 3⟩ - toOrdinal ⟨2024, 1, 1⟩ + 1 ∧
    ∀ date : String,
      Condition.wildcard "posted.keyword" (date ++ "*")
          ∈ mustConditions date "main" none none ∧
      Condition.term "branch.keyword" "main"
          ∈ mustConditions date "main" none none ∧
      ((∃ v, Condition.term "sha1.keyword" v
          ∈ mustConditions date "main" none none) ↔ truthy none = true) ∧
      ((∃ v, Condition.term "user.keyword" v
          ∈ mustConditions date "main" none none) ↔ truthy none = true)) ∧
    toOrdinal ⟨2024, 1, 3⟩ - toOrdinal ⟨2024, 1, 1⟩ + 1 = 3 ∧
    fmtDate (fromOrdinal (toOrdinal ⟨2024, 1, 1⟩)) = "2024-01-01" ∧
    fmtDate (fromOrdinal (toOrdinal ⟨2024, 1, 1⟩ + 1)) = "2024-01-02" ∧
    fmtDate (fromOrdinal (toOrdinal ⟨2024, 1, 3⟩)) = "2024-01-03" :=
  ⟨by decide,
   query_data_day_range (fun _ => none) "main" ⟨2024, 1, 1⟩ ⟨2024, 1, 3⟩
     none none (by decide),
   by decide, by decide, by decide, by decide⟩

/-! ## Fetching: `get_data` (src/fetcher.py) -/

/-- An HTTP response as `get_data` inspects it: status code, the
`Content-Type` header (`headers.get("Content-Type", "")`), the JSON value
`response.json()` would yield, and `response.text`. -/
structure HttpResponse where
  status_code : Nat
  content_type : Option String
  jsonBody : JValue
  text : String

/-- What a successful `get_data` returns: a parsed JSON document or raw
text. -/
inductive FetchResult where
  | json (v : JValue)
  | text (s : String)

/-- `str.lower()` on a header value, modelled character-wise over the ASCII
range (Content-Type header values are ASCII). -/
def asciiLower (s : String) : String :=
  ⟨s.data.map fun c =>
    if 'A' ≤ c ∧ c ≤ 'Z' then Char.ofNat (c.toNat + 32) else c⟩

/-- `s.startswith(p)`, modelled over the character list. -/
def strStartsWith (s p : String) : Bool := p.data.isPrefixOf s.data

/-- The lowercased content type `get_data` branches on. -/
def ctypeOf (r : HttpResponse) : String := asciiLower (r.content_type.getD "")

/-- `get_data` from src/fetcher.py: on status 200, return the parsed JSON
body for content type `application/json`, the raw text for a content type
starting with `text/plain`, and raise otherwise; on any other status,
raise. Raising `ValueError` is modelled as `Except.error` with the
message. -/
def get_data (r : HttpResponse) : Except String FetchResult :=
  if r.status_code = 200 then
    if ctypeOf r = "application/json" then .ok (.json r.jsonBody)
    else if strStartsWith (ctypeOf r) "text/plain" then .ok (.text r.text)
    else .error ("Unexpected Content-Type : " ++ ctypeOf r)
  else .error "Failed to fetch data from url"

/-- C4: `get_data` returns the parsed JSON body when the status is 200 and
the content type is `application/json`, returns the raw text when the
status is 200 and the content type is plain text, and fails with an error
exactly when the status is not 200 or the content type is neither JSON nor
plain text. -/
theorem get_data_spec (r : HttpResponse) :
    (r.status_code = 200 → ctypeOf r = "application/json" →
      get_data r = .ok (.json r.jsonBody)) ∧
    (r.status_code = 200 → strStartsWith (ctypeOf r) "text/plain" = true →
      get_data r = .ok (.text r.text)) ∧
    ((∃ msg, get_data r = .error msg) ↔
      (r.status_code ≠ 200 ∨ (ctypeOf r ≠ "application/json" ∧
        strStartsWith (ctypeOf r) "text/plain" = false))) := by
  refine ⟨?_, ?_, ?_⟩
  · intro hs hc
    rw [get_data, if_pos hs, if_pos hc]
  · intro hs hc
    have hne : ctypeOf r ≠ "application/json" := by
      intro heq
      rw [heq] at hc
      exact absurd hc (by decide)
    rw [get_data, if_pos hs, if_neg hne, if_pos hc]
  · by_cases hs : r.status_code = 200
    · by_cases hc : ctypeOf r = "application/json"
      · rw [get_data, if_pos hs, if_pos hc]
        simp [hs, hc]
      · by_cases ht : strStartsWith (ctypeOf r) "text/plain"
        · rw [get_data, if_pos hs, if_neg hc, if_pos ht]
          simp [hs, hc, ht]
        · rw [get_data, if_pos hs, if_neg hc,
            if_neg (by simpa using ht)]
          simp only [Bool.not_eq_true] at ht
          simp [hs, hc, ht]
    · rw [get_data, if_neg hs]
      simp [hs]

/-- Witness for C4: a 200 JSON response yields its parsed body. -/
theorem get_data_spec_witness :
    (200 = 200 ∧
      ctypeOf ⟨200, some "application/json", .str "ok", "raw"⟩ =
        "application/json") ∧
    get_data ⟨200, some "application/json", .str "ok", "raw"⟩ =
      .ok (.json (.str "ok")) :=
  ⟨⟨rfl, by decide⟩,
   (get_data_spec ⟨200, some "application/json", .str "ok", "raw"⟩).1 rfl
     (by decide)⟩

/-! ## Report publishing: `publish_report` (src/processer.py) -/

/-- The email handed to `send_email` by `publish_report`. -/
structure Email where
  subject : String
  html : Report
  address : String

/-- `publish_report` from src/processer.py (OpenSearch path): fetch the
hits via `query_data`; when none are found, log and return without sending
any email; otherwise render the report and send it with the formatted
subject (`EMAIL_SUBJECT_FORMAT`). -/
def publish_report (search : List Condition → Option (List Hit))
    (branch : String) (start_date end_date : Date)
    (results_server address : String) (sha_id user : Option String) :
    Option Email :=
  let hits := query_data search branch start_date end_date sha_id user
  if hits.isEmpty then none
  else
    some { subject := "Teuthology Test Summary - " ++ fmtDate end_date
             ++ " - " ++ branch
           html := teuthology_report hits branch results_server sha_id
           address := address }

/-- C6: when the accumulated hits over the whole date range are empty, the
report path yields the explicit "no data available" result rather than an
empty report, and `publish_report` skips sending the email. -/
theorem publish_report_skips_when_no_data
    (search : List Condition → Option (List Hit)) (branch : String)
    (start_date end_date : Date) (results_server address : String)
    (sha_id user : Option String)
    (hempty : query_data search branch start_date end_date sha_id user = []) :
    teuthology_report [] branch results_server sha_id = .noData branch ∧
    publish_report search branch start_date end_date results_server address
      sha_id user = none := by
  refine ⟨rfl, ?_⟩
  rw [publish_report]
  simp [hempty]

/-- Witness for C6: a one-day range whose query reports no hits produces no
email. -/
theorem publish_report_skips_when_no_data_witness :
    query_data (fun _ => none) "main" ⟨2024, 1, 1⟩ ⟨2024, 1, 1⟩ none none
      = [] ∧
    (teuthology_report [] "main" "http://results" none = .noData "main" ∧
    publish_report (fun _ => none) "main" ⟨2024, 1, 1⟩ ⟨2024, 1, 1⟩
      "http://results" "qa@example.com" none none = none) :=
  have hempty : query_data (fun _ => none) "main" ⟨2024, 1, 1⟩ ⟨2024, 1, 1⟩
      none none = [] := by
    rw [query_data, queryLoop, if_pos (by decide), queryLoop,
      if_neg (by decide)]
    rfl
  ⟨hempty,
   publish_report_skips_when_no_data (fun _ => none) "main" ⟨2024, 1, 1⟩
     ⟨2024, 1, 1⟩ "http://results" "qa@example.com" none none hempty⟩

/-! ## Ingestion control flow: `update_job`, `update_runs`, `process`,
`run_task` (src/processer.py)

The paddle service is abstracted by `fetchJobs` (the outcome of
`get_data(hrefs[0]).get("jobs", [])` per run) and by one
`Except`-valued runs fetch per suite (the outcome of `get_runs`). A raised
`FetchError` is `Except.error`. Document writes are recorded as a list of
attempted inserts; `insert_job` / `insert_run` /
`insert_failure_template` catch their own insertion errors, so a document
write never raises out of the job loop. -/

/-- A teuthology job as `update_job` reads it. -/
structure Job where
  job_id : String
  failure_reason : Option String
deriving Repr, DecidableEq

/-- A teuthology run record from paddle: its name and `href` list. -/
structure RunRec where
  name : String
  href : Option (List String)
deriving Repr, DecidableEq

/-- A document insert attempted against OpenSearch during ingestion. -/
inductive Doc where
  | jobDoc (id : String)
  | runDoc (name : String) (job_ids : List String)
  | patternDoc (failure : String)
deriving Repr, DecidableEq

/-- `update_job` from src/processer.py: when a template miner is active and
the job has a truthy failure reason, insert a failure template, then insert
the job document; returns the attempted inserts and the job id. -/
def update_job (miner : Bool) (job : Job) : List Doc × String :=
  ((if miner && truthy job.failure_reason then
      [Doc.patternDoc (job.failure_reason.getD "")]
    else [])
    ++ [Doc.jobDoc job.job_id], job.job_id)

/-- `update_runs` from src/processer.py: reset `job_ids` to `[]`, and when
the run has a usable href, fetch its jobs (a fetch failure propagates),
process each job in order while appending its id, then insert the run
document; without a usable href, insert the run with an empty `job_ids`. -/
def update_runs (fetchJobs : String → Except Unit (List Job)) (miner : Bool)
    (run : RunRec) : Except Unit (List Doc) :=
  match run.href with
  | some (href0 :: _) =>
    match fetchJobs href0 with
    | .error e => .error e
    | .ok jobs =>
      let step := jobs.foldl
        (fun (acc : List Doc × List String) job =>
          (acc.1 ++ (update_job miner job).1,
           acc.2 ++ [(update_job miner job).2]))
        ([], [])
      .ok (step.1 ++ [.runDoc run.name step.2])
  | _ => .ok [.runDoc run.name []]

/-- The run loop of `process` from src/processer.py: each run is processed
in order with **no** per-run exception handler, so the first failing
`update_runs` ends the loop, keeping only the documents already written
(`true` flags that an exception escaped). -/
def processRuns (fetchJobs : String → Except Unit (List Job)) (miner : Bool) :
    List RunRec → List Doc → List Doc × Bool
  | [], acc => (acc, false)
  | run :: rest, acc =>
    match update_runs fetchJobs miner run with
    | .ok docs => processRuns fetchJobs miner rest (acc ++ docs)
    | .error _ => (acc, true)

/-- `process` from src/processer.py for one suite: fetch the runs (a fetch
failure escapes immediately) and process them sequentially. -/
def process (fetchRuns : Except Unit (List RunRec))
    (fetchJobs : String → Except Unit (List Job)) (miner : Bool) :
    List Doc × Bool :=
  match fetchRuns with
  | .ok runs => processRuns fetchJobs miner runs []
  | .error _ => ([], true)

/-- `run_task` from src/processer.py: the suite loop runs inside a single
`try/except`, so the first exception escaping `process` ends the whole
cycle (it is logged); documents written before the failure persist. -/
def run_task (suiteRuns : List (Except Unit (List RunRec)))
    (fetchJobs : String → Except Unit (List Job)) (miner : Bool) : List Doc :=
  match suiteRuns with
  | [] => []
  | fetchRuns :: rest =>
    match process fetchRuns fetchJobs miner with
    | (docs, false) => docs ++ run_task rest fetchJobs miner
    | (docs, true) => docs

/-- Concrete ingestion environment: fetching run `r1`'s jobs fails with a
`FetchError`; fetching run `r2`'s jobs succeeds. -/
def cexFetchJobs : String → Except Unit (List Job) :=
  fun href => if href = "u1" then .error () else .ok [⟨"j2", none⟩]

/-- Two sibling runs in one ingestion cycle: `r1` (whose job fetch fails)
before `r2` (whose job fetch succeeds). -/
def cexRuns : List RunRec := [⟨"r1", some ["u1"]⟩, ⟨"r2", some ["u2"]⟩]

/-- C5 counterexample: processing run `r2` alone succeeds and writes its
documents, but in a cycle where its sibling `r1` fails with a fetch error
first, the cycle's output is empty — `r2` is never processed, so a fetch
failure does not abort only the specific run in progress. -/
theorem run_task_no_sibling_isolation :
    update_runs cexFetchJobs false ⟨"r2", some ["u2"]⟩ =
      .ok [Doc.jobDoc "j2", Doc.runDoc "r2" ["j2"]] ∧
    run_task [.ok cexRuns] cexFetchJobs false = [] ∧
    Doc.runDoc "r2" ["j2"] ∉ run_task [.ok cexRuns] cexFetchJobs false := by
  refine ⟨rfl, rfl, ?_⟩
  decide

/-- `true` iff the `Except` value is `ok`. -/
def exceptOk {ε α : Type} : Except ε α → Bool
  | .ok _ => true
  | .error _ => false

/-- The documents a successful `update_runs` writes for a run (`[]` on a
fetch failure). -/
def okDocs (fetchJobs : String → Except Unit (List Job)) (miner : Bool)
    (r : RunRec) : List Doc :=
  match update_runs fetchJobs miner r with
  | .ok docs => docs
  | .error _ => []

theorem processRuns_abort (fetchJobs : String → Except Unit (List Job))
    (miner : Bool) :
    ∀ (pre : List RunRec) (bad : RunRec) (post : List RunRec) (acc : List Doc),
    (∀ r ∈ pre, exceptOk (update_runs fetchJobs miner r) = true) →
    exceptOk (update_runs fetchJobs miner bad) = false →
    processRuns fetchJobs miner (pre ++ bad :: post) acc =
      (acc ++ (pre.map (okDocs fetchJobs miner)).flatten, true) := by
  intro pre
  induction pre with
  | nil =>
    intro bad post acc hpre hbad
    rw [List.nil_append, processRuns]
    cases hu : update_runs fetchJobs miner bad with
    | ok docs => rw [hu] at hbad; simp [exceptOk] at hbad
    | error e => simp
  | cons r rest ih =>
    intro bad post acc hpre hbad
    rw [List.cons_append, processRuns]
    cases hu : update_runs fetchJobs miner r with
    | error e =>
      have := hpre r (List.mem_cons_self _ _)
      rw [hu] at this
      simp [exceptOk] at this
    | ok docs =>
      show processRuns fetchJobs miner (rest ++ bad :: post) (acc ++ docs) =
        (acc ++ (List.map (okDocs fetchJobs miner) (r :: rest)).flatten, true)
      rw [ih bad post (acc ++ docs)
        (fun r' hr' => hpre r' (List.mem_cons_of_mem _ hr')) hbad]
      simp [okDocs, hu, List.append_assoc]

/-- C5 (amended): within an ingestion cycle, runs are processed
sequentially with no per-run or per-job failure boundary; the first fetch
failure ends the whole cycle (the lone `try/except` in `run_task` wraps
the entire suite loop), keeping exactly the documents of the runs
processed before the failure — later sibling runs, and later suites, are
not processed. -/
theorem run_task_aborts_on_fetch_error
    (fetchJobs : String → Except Unit (List Job)) (miner : Bool)
    (pre post : List RunRec) (bad : RunRec)
    (rest : List (Except Unit (List RunRec)))
    (hpre : ∀ r ∈ pre, exceptOk (update_runs fetchJobs miner r) = true)
    (hbad : exceptOk (update_runs fetchJobs miner bad) = false) :
    run_task (.ok (pre ++ bad :: post) :: rest) fetchJobs miner =
      (pre.map (okDocs fetchJobs miner)).flatten := by
  have habort := processRuns_abort fetchJobs miner pre bad post [] hpre hbad
  simp only [run_task, process, habort, List.nil_append]

/-- Witness for the amended C5 at a concrete cycle: one successful run,
then a run whose job fetch fails, then an unprocessed sibling and an
unprocessed second suite. -/
theorem run_task_aborts_on_fetch_error_witness :
    (∀ r ∈ [(⟨"r0", none⟩ : RunRec)],
      exceptOk (update_runs cexFetchJobs false r) = true) ∧
    exceptOk (update_runs cexFetchJobs false ⟨"r1", some ["u1"]⟩) = false ∧
    run_task
        [.ok ([⟨"r0", none⟩] ++ ⟨"r1", some ["u1"]⟩ :: [⟨"r2", some ["u2"]⟩]),
         .ok cexRuns] cexFetchJobs false =
      ([(⟨"r0", none⟩ : RunRec)].map (okDocs cexFetchJobs false)).flatten :=
  ⟨by decide, by decide,
   run_task_aborts_on_fetch_error cexFetchJobs false [⟨"r0", none⟩]
     [⟨"r2", some ["u2"]⟩] ⟨"r1", some ["u1"]⟩ [.ok cexRuns]
     (by decide) (by decide)⟩

theorem jobsFoldl_eq (miner : Bool) :
    ∀ (jobs : List Job) (d : List Doc) (ids : List String),
    jobs.foldl
      (fun (acc : List Doc × List String) job =>
        (acc.1 ++ (update_job miner job).1,
         acc.2 ++ [(update_job miner job).2]))
      (d, ids) =
      (d ++ (jobs.map fun j => (update_job miner j).1).flatten,
       ids ++ jobs.map Job.job_id) := by
  intro jobs
  induction jobs with
  | nil => intro d ids; simp
  | cons j rest ih =>
    intro d ids
    rw [List.foldl_cons, ih]
    simp [update_job]

/-- C8: the run document written by `update_runs` carries a `job_ids` list
equal exactly, and in order, to the job ids of the jobs fetched for the run
in this ingestion (the list is rebuilt from empty); a run without a usable
job reference is stored with an empty `job_ids` list. -/
theorem update_runs_job_ids (fetchJobs : String → Except Unit (List Job))
    (miner : Bool) (run : RunRec) :
    (∀ (href0 : String) (hrest : List String) (jobs : List Job),
      run.href = some (href0 :: hrest) → fetchJobs href0 = .ok jobs →
      update_runs fetchJobs miner run =
        .ok ((jobs.map fun j => (update_job miner j).1).flatten
          ++ [Doc.runDoc run.name (jobs.map Job.job_id)])) ∧
    ((run.href = none ∨ run.href = some []) →
      update_runs fetchJobs miner run = .ok [Doc.runDoc run.name []]) := by
  constructor
  · intro href0 hrest jobs hhref hfetch
    rw [update_runs, hhref]
    simp only [hfetch, jobsFoldl_eq miner jobs [] [], List.nil_append]
  · rintro (hhref | hhref) <;> rw [update_runs, hhref]

/-- Witness for C8 at a concrete run with one fetched job. -/
theorem update_runs_job_ids_witness :
    (⟨"r2", some ["u2"]⟩ : RunRec).href = some ("u2" :: []) ∧
    cexFetchJobs "u2" = .ok [⟨"j2", none⟩] ∧
    update_runs cexFetchJobs false ⟨"r2", some ["u2"]⟩ =
      .ok (([(⟨"j2", none⟩ : Job)].map fun j => (update_job false j).1).flatten
        ++ [Doc.runDoc (⟨"r2", some ["u2"]⟩ : RunRec).name
              ([(⟨"j2", none⟩ : Job)].map Job.job_id)]) :=
  ⟨rfl, rfl,
   (update_runs_job_ids cexFetchJobs false ⟨"r2", some ["u2"]⟩).1 "u2" []
     [⟨"j2", none⟩] rfl (by rfl)⟩

/-! ## Bulk log insertion: `insert_logs` (api/opensearch.py) and
`batchify` (src/utils.py)

The log file is modelled by its text; iterating the file yields its lines
(`splitLines`), the generator `(line for line in f if line.strip())` keeps
the lines with a non-whitespace character (`keptLines`), and
`line.rstrip("\n")` is implicit because `splitLines` already removes the
newlines. `helpers.bulk` is abstracted by `bulkOk`; its exceptions are
caught inside the batch loop, so every batch is attempted. -/

/-- Split a character list at newline characters. -/
def splitLinesAux : List Char → List Char → List (List Char)
  | [], cur => [cur.reverse]
  | c :: rest, cur =>
    if c = '\n' then cur.reverse :: splitLinesAux rest []
    else splitLinesAux rest (c :: cur)

/-- The lines of the log text, without their newline terminators. -/
def splitLines (text : String) : List String :=
  (splitLinesAux text.data []).map fun cs => String.mk cs

/-- The lines the generator `(line for line in f if line.strip())` keeps:
those containing at least one non-whitespace character. -/
def keptLines (text : String) : List String :=
  (splitLines text).filter fun l => !(l.data.all Char.isWhitespace)

/-- One entry of a bulk `actions` list: target index, the log line, and the
owning job id. -/
structure Action where
  index : String
  message : String
  jobId : String
deriving Repr, DecidableEq

/-- The loop body of `batchify` (src/utils.py, identical to the local
`batchify` in api/opensearch.py): accumulate items, yielding a batch each
time it reaches `batchSize`, and the leftover batch at the end if
non-empty. -/
def batchifyGo {α : Type} (batchSize : Nat) :
    List α → List α → List (List α)
  | [], batch => if batch.isEmpty then [] else [batch]
  | item :: rest, batch =>
    if (batch ++ [item]).length = batchSize then
      (batch ++ [item]) :: batchifyGo batchSize rest []
    else batchifyGo batchSize rest (batch ++ [item])

/-- `batchify` from src/utils.py. -/
def batchify {α : Type} (items : List α) (batch_size : Nat := 1000) :
    List (List α) :=
  batchifyGo batch_size items []

/-- `insert_logs` from api/opensearch.py: batch the kept log lines by 1000,
and for each batch build one bulk `actions` list tagged with the job id and
attempt the bulk write (`bulkOk` reports its success; a failure is caught
and logged, so every batch is attempted). -/
def insert_logs (bulkOk : List Action → Bool) (index id text : String) :
    List (List Action × Bool) :=
  (batchify (keptLines text) 1000).map fun batch_lines =>
    let actions := batch_lines.map fun line =>
      Action.mk index line id
    (actions, bulkOk actions)

theorem batchifyGo_flatten {α : Type} (n : Nat) :
    ∀ (l b : List α), (batchifyGo n l b).flatten = b ++ l := by
  intro l
  induction l with
  | nil =>
    intro b
    rw [batchifyGo]
    cases hb : b.isEmpty
    · simp_all
    · simp_all [List.isEmpty_iff]
  | cons item rest ih =>
    intro b
    rw [batchifyGo]
    by_cases hfull : (b ++ [item]).length = n
    · rw [if_pos hfull, List.flatten_cons, ih, List.nil_append,
        List.append_assoc, List.singleton_append]
    · rw [if_neg hfull, ih, List.append_assoc, List.singleton_append]

theorem batchifyGo_sizes {α : Type} (n : Nat) (hn : 0 < n) :
    ∀ (l b : List α), b.length < n →
      ∀ batch ∈ batchifyGo n l b, batch ≠ [] ∧ batch.length ≤ n := by
  intro l
  induction l with
  | nil =>
    intro b hb batch hbatch
    rw [batchifyGo] at hbatch
    cases hbe : b.isEmpty
    · rw [hbe, if_neg (by simp)] at hbatch
      obtain rfl := List.mem_singleton.1 hbatch
      exact ⟨by simpa [List.isEmpty_iff] using hbe, le_of_lt hb⟩
    · rw [hbe, if_pos rfl] at hbatch
      simp at hbatch
  | cons item rest ih =>
    intro b hb batch hbatch
    rw [batchifyGo] at hbatch
    by_cases hfull : (b ++ [item]).length = n
    · rw [if_pos hfull] at hbatch
      rcases List.mem_cons.1 hbatch with rfl | hmem
      · refine ⟨?_, le_of_eq hfull⟩
        simp
      · exact ih [] (by simpa using hn) batch hmem
    · rw [if_neg hfull] at hbatch
      refine ih (b ++ [item]) ?_ batch hbatch
      have : (b ++ [item]).length ≤ n := by
        simp only [List.length_append, List.length_singleton]
        omega
      omega

theorem batchifyGo_dropLast {α : Type} (n : Nat) :
    ∀ (l b : List α),
      ∀ batch ∈ (batchifyGo n l b).dropLast, batch.length = n := by
  intro l
  induction l with
  | nil =>
    intro b batch hbatch
    rw [batchifyGo] at hbatch
    cases hbe : b.isEmpty
    · rw [hbe, if_neg (by simp)] at hbatch
      simp at hbatch
    · rw [hbe, if_pos rfl] at hbatch
      simp at hbatch
  | cons item rest ih =>
    intro b batch hbatch
    rw [batchifyGo] at hbatch
    by_cases hfull : (b ++ [item]).length = n
    · rw [if_pos hfull] at hbatch
      cases hrec : batchifyGo n rest ([] : List α) with
      | nil => rw [hrec] at hbatch; simp at hbatch
      | cons r rs =>
        rw [hrec, List.dropLast_cons₂] at hbatch
        rcases List.mem_cons.1 hbatch with rfl | hmem
        · exact hfull
        · exact ih [] batch (by rw [hrec]; exact hmem)
    · rw [if_neg hfull] at hbatch
      exact ih (b ++ [item]) batch hbatch

theorem flatten_map_map {α β : Type} (f : α → β) (l : List (List α)) :
    (l.map (List.map f)).flatten = l.flatten.map f := by
  induction l with
  | nil => rfl
  | cons x t ih =>
    rw [List.map_cons, List.flatten_cons, List.flatten_cons,
      List.map_append, ih]

theorem dropLast_map {α β : Type} (f : α → β) :
    ∀ l : List α, (l.map f).dropLast = l.dropLast.map f
  | [] => rfl
  | [_] => rfl
  | a :: b :: t => by
    rw [List.map_cons, List.map_cons, List.dropLast_cons₂,
      List.dropLast_cons₂, ← List.map_cons f b t, dropLast_map f (b :: t),
      List.map_cons]

/-- C7 (amended): `insert_logs` keeps exactly the non-blank lines of the
log text (those with a non-whitespace character, per `line.strip()`),
groups them in order into batches of exactly 1000 lines — only the last
batch may be smaller, and no batch is empty — writes each batch as one
bulk operation every entry of which is tagged with the owning job id, and
attempts every batch regardless of the success of the others. -/
theorem insert_logs_spec (bulkOk : List Action → Bool)
    (index id text : String) :
    ((insert_logs bulkOk index id text).map Prod.fst).flatten.map
        Action.message = keptLines text ∧
    keptLines text =
      (splitLines text).filter (fun l => !(l.data.all Char.isWhitespace)) ∧
    (∀ p ∈ insert_logs bulkOk index id text, p.1 ≠ [] ∧ p.1.length ≤ 1000 ∧
      ∀ a ∈ p.1, a.jobId = id ∧ a.index = index) ∧
    (∀ b ∈ ((insert_logs bulkOk index id text).map Prod.fst).dropLast,
      b.length = 1000) ∧
    ∀ bulkOk' : List Action → Bool,
      (insert_logs bulkOk' index id text).map Prod.fst =
        (insert_logs bulkOk index id text).map Prod.fst := by
  have hfst : ∀ bo : List Action → Bool,
      (insert_logs bo index id text).map Prod.fst =
        (batchify (keptLines text) 1000).map
          (List.map fun line => Action.mk index line id) := by
    intro bo
    rw [insert_logs, List.map_map]
    rfl
  have hflat : (batchify (keptLines text) 1000).flatten = keptLines text := by
    rw [batchify]
    exact batchifyGo_flatten 1000 (keptLines text) []
  refine ⟨?_, rfl, ?_, ?_, ?_⟩
  · rw [hfst, flatten_map_map, hflat, List.map_map]
    exact List.map_id _
  · intro p hp
    rcases List.mem_map.1 hp with ⟨batch, hbatch, rfl⟩
    obtain ⟨hb1, hb2⟩ := batchifyGo_sizes 1000 (by omega) (keptLines text) []
      (by simp) batch hbatch
    refine ⟨by simpa using hb1, by simpa using hb2, ?_⟩
    intro a ha
    rcases List.mem_map.1 ha with ⟨line, -, rfl⟩
    exact ⟨rfl, rfl⟩
  · intro b hb
    rw [hfst, dropLast_map] at hb
    rcases List.mem_map.1 hb with ⟨batch, hbatch, rfl⟩
    have := batchifyGo_dropLast 1000 (keptLines text) [] batch
      (by rw [← batchify]; exact hbatch)
    simpa using this
  · intro bulkOk'
    rw [hfst, hfst]

/-- C7 counterexample: a log whose second line is a single space — a
non-empty line — shows `insert_logs` does not keep every non-empty line:
the whitespace-only line is dropped (the source filters with
`line.strip()`, not on emptiness). -/
theorem insert_logs_drops_whitespace_line :
    splitLines "a\n \nb" = ["a", " ", "b"] ∧
    (splitLines "a\n \nb").filter (fun l => !(decide (l = ""))) =
      ["a", " ", "b"] ∧
    ((insert_logs (fun _ => true) "teuthology-logs" "j1" "a\n \nb").map
        Prod.fst).flatten.map Action.message = ["a", "b"] ∧
    (["a", "b"] : List String) ≠ ["a", " ", "b"] := by
  refine ⟨?_, ?_, ?_, ?_⟩ <;> decide

end TeuthologyMetrics
